import Mathlib

/-!
The class shared_string_view.

A verification development for `src/shared-string-view.hh`: a reference-counted
view `[_begin, _end)` over an immutable `std::string` buffer.

Embedding conventions.
* A byte (`char` compared as `unsigned char`, as `std::char_traits<char>` does)
  is a `Fin 256`; a `std::string` is a `List Byte`.
* `size_type` is the 64-bit unsigned type: offsets are `Nat`, and every
  arithmetic operation of the source on them is taken `% SIZE_MOD`.
* `std::shared_ptr<const std::string> _data` is an `Option (List Byte)`: `none`
  is the null pointer left by the default constructor.
* Operations return `Except Fault _`: `Fault.out_of_range` is the
  `std::out_of_range` exception of `std::string::at`, `Fault.undefined` is
  undefined behaviour (null dereference, read outside the buffer).
-/

namespace sjo

/-- A `char`, ordered as `unsigned char`. -/
abbrev Byte := Fin 256

/-- Number of values of `size_type` (`std::size_t`, 64 bits). -/
def SIZE_MOD : Nat := 18446744073709551616

/-- Ways an operation can fail to produce a value. -/
inductive Fault where
  | out_of_range
  | undefined
  deriving DecidableEq, Repr

/-- The class `shared_string_view`: fields `_data`, `_begin`, `_end`. -/
structure shared_string_view where
  _data : Option (List Byte)
  _begin : Nat
  _end : Nat
  deriving DecidableEq, Repr

/-- A `const char*` into a string buffer: the buffer and an offset in it. -/
structure Ptr where
  buf : List Byte
  off : Nat
  deriving DecidableEq, Repr

/-- A `std::string::const_iterator`: the buffer and a position in it. -/
structure Iter where
  buf : List Byte
  idx : Nat
  deriving DecidableEq, Repr

/-- A `std::string::const_reverse_iterator`: wraps the iterator `base`; it
designates the element just before `base`. -/
structure RevIter where
  base : Iter
  deriving DecidableEq, Repr

/-- A `std::experimental::string_view`: a pointer and a length. -/
structure string_view where
  ptr : Ptr
  len : Nat
  deriving DecidableEq, Repr

/-- Unsigned subtraction of `size_type`: `a - b` modulo `2^64`. -/
def wsub (a b : Nat) : Nat := (a + (SIZE_MOD - b % SIZE_MOD)) % SIZE_MOD

/-- Unsigned addition of `size_type`: `a + b` modulo `2^64`. -/
def wadd (a b : Nat) : Nat := (a + b) % SIZE_MOD

/-- Reading `n` bytes starting at a pointer; outside the buffer the read is
undefined. -/
def Ptr.read (p : Ptr) (n : Nat) : Except Fault (List Byte) :=
  if p.off + n ≤ p.buf.length then .ok ((p.buf.drop p.off).take n)
  else .error Fault.undefined

/-- Dereferencing an iterator (`*it`). -/
def Iter.deref (it : Iter) : Except Fault Byte :=
  match it.buf[it.idx]? with
  | some c => .ok c
  | none => .error Fault.undefined

/-- Dereferencing a reverse iterator: `*(base - 1)`. -/
def RevIter.deref (r : RevIter) : Except Fault Byte :=
  if r.base.idx = 0 then .error Fault.undefined
  else Iter.deref ⟨r.base.buf, r.base.idx - 1⟩

/-- The method `std::string::at`: checked against the string's length. -/
def string_at (s : List Byte) (pos : Nat) : Except Fault Byte :=
  match s[pos]? with
  | some c => .ok c
  | none => .error Fault.out_of_range

/-- The loop of `std::char_traits<char>::compare` on two equally long runs of
bytes: the first position where they differ decides, `lt` being the order of
`unsigned char`. -/
def traits_compare_bytes : List Byte → List Byte → Int
  | x :: xs, y :: ys =>
    if x < y then -1
    else if y < x then 1
    else traits_compare_bytes xs ys
  | _, _ => 0

/-- The call `traits_type::compare (s1, s2, n)`: reads `n` bytes at each
pointer. -/
def traits_compare (s1 s2 : Ptr) (n : Nat) : Except Fault Int := do
  let a ← s1.read n
  let b ← s2.read n
  pure (traits_compare_bytes a b)

/-- Constructor `shared_string_view (std::string s)`. -/
def shared_string_view.of_string (s : List Byte) : shared_string_view :=
  { _data := some s, _begin := 0, _end := s.length }

/-- Default constructor `shared_string_view ()`: no buffer. -/
def shared_string_view.default : shared_string_view :=
  { _data := none, _begin := 0, _end := 0 }

namespace shared_string_view

/-- Method `begin ()`: `_data->begin () + _begin`. -/
def begin (v : shared_string_view) : Except Fault Iter :=
  match v._data with
  | none => .error Fault.undefined
  | some d => .ok ⟨d, v._begin⟩

/-- Method `end ()`: `_data->begin () + _end`. -/
def «end» (v : shared_string_view) : Except Fault Iter :=
  match v._data with
  | none => .error Fault.undefined
  | some d => .ok ⟨d, v._end⟩

/-- Method `rbegin ()`: `_data->rend () - _end`; `rend ()` of a string wraps
its `begin ()`, and subtracting `n` from a reverse iterator advances its base
by `n`. -/
def rbegin (v : shared_string_view) : Except Fault RevIter :=
  match v._data with
  | none => .error Fault.undefined
  | some d => .ok ⟨⟨d, 0 + v._end⟩⟩

/-- Method `rend ()`: `_data->rend () - _begin`. -/
def rend (v : shared_string_view) : Except Fault RevIter :=
  match v._data with
  | none => .error Fault.undefined
  | some d => .ok ⟨⟨d, 0 + v._begin⟩⟩

/-- Method `at (pos)`: `_data->at (_begin + pos)`. -/
def «at» (v : shared_string_view) (pos : Nat) : Except Fault Byte :=
  match v._data with
  | none => .error Fault.undefined
  | some d => string_at d (wadd v._begin pos)

/-- Method `front ()`: `*begin ()`. -/
def front (v : shared_string_view) : Except Fault Byte := do
  let it ← v.begin
  it.deref

/-- Method `back ()`: `*rbegin ()`. -/
def back (v : shared_string_view) : Except Fault Byte := do
  let r ← v.rbegin
  r.deref

/-- Method `data ()`: `_data->data () + _begin`. -/
def data (v : shared_string_view) : Except Fault Ptr :=
  match v._data with
  | none => .error Fault.undefined
  | some d => .ok ⟨d, v._begin⟩

/-- Method `size ()`: `_end - _begin`. -/
def size (v : shared_string_view) : Nat := wsub v._end v._begin

/-- Method `length ()`: `_end - _begin`. -/
def length (v : shared_string_view) : Nat := wsub v._end v._begin

/-- Method `empty ()`: `_begin == _end`. -/
def empty (v : shared_string_view) : Bool := v._begin == v._end

/-- Method `remove_prefix (n)`: `_begin += n`. -/
def remove_prefix (v : shared_string_view) (n : Nat) : shared_string_view :=
  { v with _begin := wadd v._begin n }

/-- Method `remove_suffix (n)`: `_end -= n`. -/
def remove_suffix (v : shared_string_view) (n : Nat) : shared_string_view :=
  { v with _end := wsub v._end n }

/-- Conversion `operator std::string ()`: `std::string (begin (), end ())`,
the copy of the bytes between the two iterators. -/
def to_std_string (v : shared_string_view) : Except Fault (List Byte) := do
  let b ← v.begin
  let e ← v.end
  if b.idx ≤ e.idx ∧ e.idx ≤ b.buf.length then
    pure ((b.buf.drop b.idx).take (e.idx - b.idx))
  else throw Fault.undefined

/-- Conversion `operator std::experimental::string_view ()`:
`string_view (data (), size ())`. -/
def to_std_string_view (v : shared_string_view) : Except Fault string_view := do
  let p ← v.data
  pure ⟨p, v.size⟩

/-- Method `compare (v)`. -/
def compare (a v : shared_string_view) : Except Fault Int := do
  let rlen := min a.length v.length
  let p ← a.data
  let q ← v.data
  let cmp ← traits_compare p q rlen
  if cmp ≠ 0 then
    pure cmp
  else if a.length < v.length then
    pure (-1)
  else if a.length > v.length then
    pure 1
  else
    pure 0

end shared_string_view

open shared_string_view

/-- Free function `to_string (v)`: `static_cast <std::string> (v)`. -/
def to_string (v : shared_string_view) : Except Fault (List Byte) :=
  v.to_std_string

/-- Free function `to_string_view (v)`. -/
def to_string_view (v : shared_string_view) : Except Fault string_view :=
  v.to_std_string_view

/-- Free function `subseq (s, begin, end)`: on the copy `s`,
`remove_prefix (begin)` and then `remove_suffix (s.length () - end)`. -/
def subseq (s : shared_string_view) (b e : Nat) : shared_string_view :=
  let s1 := s.remove_prefix b
  let s2 := s1.remove_suffix (wsub s1.length e)
  s2

/-- The operator `a == b`: `a.compare (b) == 0`. -/
def op_eq (a b : shared_string_view) : Except Fault Bool := do
  let c ← a.compare b
  pure (c == 0)

/-- The operator `a != b`: `!(a == b)`. -/
def op_ne (a b : shared_string_view) : Except Fault Bool := do
  let r ← op_eq a b
  pure (!r)

/-- The operator `a < b`: `a.compare (b) < 0`. -/
def op_lt (a b : shared_string_view) : Except Fault Bool := do
  let c ← a.compare b
  pure (decide (c < 0))

/-- The operator `a > b`: `b < a`. -/
def op_gt (a b : shared_string_view) : Except Fault Bool :=
  op_lt b a

/-- The operator `a <= b`: `!(a > b)`. -/
def op_le (a b : shared_string_view) : Except Fault Bool := do
  let r ← op_gt a b
  pure (!r)

/-- The operator `a >= b`: `!(a < b)`. -/
def op_ge (a b : shared_string_view) : Except Fault Bool := do
  let r ← op_lt a b
  pure (!r)

/-- The call operator of `std::hash <sjo::shared_string_view>`: the hash of
`std::experimental::string_view` applied to `to_string_view (v)`. The library
hash is the parameter `h`, a function of the bytes the `string_view`
designates. -/
def hash (h : List Byte → Nat) (v : shared_string_view) : Except Fault Nat := do
  let sv ← to_string_view v
  let bytes ← sv.ptr.read sv.len
  pure (h bytes)

/-- The offset invariant `_begin ≤ _end ≤ length (buffer)` of a view that has a
buffer (whose length is a `size_type`). The buffer-less view of the default
constructor is not covered. -/
def Valid (v : shared_string_view) : Prop :=
  match v._data with
  | none => False
  | some d => v._begin ≤ v._end ∧ v._end ≤ d.length ∧ d.length < SIZE_MOD

instance (v : shared_string_view) : Decidable (Valid v) := by
  unfold Valid
  cases v._data <;> infer_instance

/-- The logical content `buffer[begin:end]` of a view. -/
def content (v : shared_string_view) : List Byte :=
  match v._data with
  | none => []
  | some d => (d.drop v._begin).take (v._end - v._begin)

/-- The bytes of `hello world`. -/
def hello_world : List Byte := [104, 101, 108, 108, 111, 32, 119, 111, 114, 108, 100]

/-- The bytes of `world`. -/
def world : List Byte := [119, 111, 114, 108, 100]

/-- The bytes of `hello`. -/
def hello : List Byte := [104, 101, 108, 108, 111]

/-- The bytes of `abcdefgh`. -/
def abcdefgh : List Byte := [97, 98, 99, 100, 101, 102, 103, 104]

/-- The bytes of `ab`. -/
def ab : List Byte := [97, 98]

/-- The bytes of `aba`. -/
def aba : List Byte := [97, 98, 97]

/-- The bytes of `abb`. -/
def abb : List Byte := [97, 98, 98]

/-- The byte of `x`. -/
def x_text : List Byte := [120]

/-- The operator `std::string::operator[]`: the byte at `pos`, the terminating
null character at `pos == size ()`, undefined beyond. -/
def string_index (s : List Byte) (pos : Nat) : Except Fault Byte :=
  if pos = s.length then .ok 0
  else match s[pos]? with
    | some c => .ok c
    | none => .error Fault.undefined

/-- The operator `operator [] (pos)`: `(*_data) [_begin + pos]`. -/
def shared_string_view.op_index (v : shared_string_view) (pos : Nat) : Except Fault Byte :=
  match v._data with
  | none => .error Fault.undefined
  | some d => string_index d (wadd v._begin pos)

/-- Constructor `shared_string_view (std::experimental::string_view s)`:
delegates to the constructor from `s.to_string ()`, the copy of the `len`
bytes at `ptr`. -/
def shared_string_view.of_string_view (s : string_view) : Except Fault shared_string_view := do
  let text ← s.ptr.read s.len
  pure (shared_string_view.of_string text)

/-- The string `std::string (s)` built from a `const char*`: the bytes from the
pointer up to the first null character; undefined when there is none. -/
def c_string (s : Ptr) : Except Fault (List Byte) :=
  if (0 : Byte) ∈ s.buf.drop s.off then .ok ((s.buf.drop s.off).takeWhile (fun c => c ≠ 0))
  else .error Fault.undefined

/-- Constructor `shared_string_view (const char* s)`: delegates to the
constructor from `std::string (s)`. -/
def shared_string_view.of_c_str (s : Ptr) : Except Fault shared_string_view := do
  let text ← c_string s
  pure (shared_string_view.of_string text)

/-- The defaulted copy constructor: the new view has the fields of the
source. -/
def shared_string_view.copy_construct (src : shared_string_view) : shared_string_view :=
  { _data := src._data, _begin := src._begin, _end := src._end }

/-- The defaulted move constructor: the new view, and the source afterwards,
whose `shared_ptr` is left null while its offsets are copied. -/
def shared_string_view.move_construct (src : shared_string_view) :
    shared_string_view × shared_string_view :=
  ({ _data := src._data, _begin := src._begin, _end := src._end },
   { _data := none, _begin := src._begin, _end := src._end })

/-- Method `swap (v)`: the three fields are exchanged; returns the new `*this`
and the new `v`. -/
def shared_string_view.swap (a v : shared_string_view) :
    shared_string_view × shared_string_view :=
  ({ _data := v._data, _begin := v._begin, _end := v._end },
   { _data := a._data, _begin := a._begin, _end := a._end })

/-- The invariant of the data model: a view with a buffer satisfies
`_begin ≤ _end ≤ length (buffer)`, a view without buffer has
`_begin = _end = 0`. -/
def Inv (v : shared_string_view) : Prop :=
  match v._data with
  | none => v._begin = 0 ∧ v._end = 0
  | some d => v._begin ≤ v._end ∧ v._end ≤ d.length ∧ d.length < SIZE_MOD

instance (v : shared_string_view) : Decidable (Inv v) := by
  unfold Inv
  cases v._data <;> infer_instance

/-- The loop `for (it = first; it != last; ++it)` that collects `*it`. The
first argument bounds the number of increments; `none` means the bound was
reached before `last`. -/
def Iter.collect : Nat → Iter → Iter → Option (Except Fault (List Byte))
  | 0, it, last => if it = last then some (.ok []) else none
  | fuel + 1, it, last =>
    if it = last then some (.ok [])
    else
      match it.deref with
      | .error f => some (.error f)
      | .ok c =>
        match Iter.collect fuel ⟨it.buf, it.idx + 1⟩ last with
        | none => none
        | some (.error f) => some (.error f)
        | some (.ok cs) => some (.ok (c :: cs))

/-- The same loop on reverse iterators: `++r` moves the base one position
down. -/
def RevIter.collect : Nat → RevIter → RevIter → Option (Except Fault (List Byte))
  | 0, r, last => if r = last then some (.ok []) else none
  | fuel + 1, r, last =>
    if r = last then some (.ok [])
    else
      match r.deref with
      | .error f => some (.error f)
      | .ok c =>
        match RevIter.collect fuel ⟨⟨r.base.buf, r.base.idx - 1⟩⟩ last with
        | none => none
        | some (.error f) => some (.error f)
        | some (.ok cs) => some (.ok (c :: cs))

/-- Forward iteration over a view, from `begin ()` to `end ()`. -/
def iterate_forward (v : shared_string_view) (fuel : Nat) :
    Option (Except Fault (List Byte)) :=
  match v.begin, v.end with
  | .ok b, .ok e => Iter.collect fuel b e
  | .error f, _ => some (.error f)
  | _, .error f => some (.error f)

/-- Reverse iteration over a view, from `rbegin ()` to `rend ()`. -/
def iterate_reverse (v : shared_string_view) (fuel : Nat) :
    Option (Except Fault (List Byte)) :=
  match v.rbegin, v.rend with
  | .ok b, .ok e => RevIter.collect fuel b e
  | .error f, _ => some (.error f)
  | _, .error f => some (.error f)

/-- A narrowing call on a view object: `front n` is `remove_prefix (n)`,
`back n` is `remove_suffix (n)`. -/
inductive Narrowing where
  | front (n : Nat)
  | back (n : Nat)
  deriving DecidableEq, Repr

/-- The effect of a narrowing call on the object it is called on. -/
def Narrowing.apply (op : Narrowing) (v : shared_string_view) : shared_string_view :=
  match op with
  | .front n => shared_string_view.remove_prefix v n
  | .back n => shared_string_view.remove_suffix v n

/-- The view objects of a program, by address. The buffer a view holds through
its `shared_ptr <const std::string>` is immutable and is carried by the view. -/
abbrev Store := Nat → shared_string_view

/-- Writing the object at address `x`. -/
def Store.set (st : Store) (x : Nat) (v : shared_string_view) : Store :=
  fun y => if y = x then v else st y

/-- The statement `shared_string_view w (v);`: the object at `dst` is
copy-constructed from the object at `src`. -/
def Store.copy (st : Store) (dst src : Nat) : Store :=
  st.set dst (shared_string_view.copy_construct (st src))

/-- A narrowing call on the object at `x`: a member function writes the
fields of `*this` only. -/
def Store.narrow (st : Store) (x : Nat) (op : Narrowing) : Store :=
  st.set x (op.apply (st x))

/-- A sequence of narrowing calls on the object at `x`. -/
def Store.run (st : Store) (x : Nat) (ops : List Narrowing) : Store :=
  ops.foldl (fun s op => s.narrow x op) st

/-- A store in which every object is the whole view of `hello world`. -/
def hello_store : Store := fun _ => shared_string_view.mk (some hello_world) 0 11

/-- Three narrowing calls, the last one beyond the remaining length. -/
def three_narrowings : List Narrowing :=
  [Narrowing.front 6, Narrowing.back 2, Narrowing.front 20]

/-- The value `compare` returns, as a function of the two logical contents:
the loop runs over the common prefix, then the lengths decide. -/
def compare_contents (xs ys : List Byte) : Int :=
  let c := traits_compare_bytes (xs.take (min xs.length ys.length))
    (ys.take (min xs.length ys.length))
  if c ≠ 0 then c
  else if xs.length < ys.length then -1
  else if xs.length > ys.length then 1
  else 0

/-! ## Arithmetic on `size_type` -/

theorem wsub_of_le {a b : Nat} (h : b ≤ a) (ha : a < SIZE_MOD) : wsub a b = a - b := by
  simp only [wsub, SIZE_MOD] at *
  omega

theorem wadd_of_lt {a b : Nat} (h : a + b < SIZE_MOD) : wadd a b = a + b := by
  simp only [wadd, SIZE_MOD] at *
  omega

/-! ## Lexicographic order on byte strings -/

theorem cons_lt_cons_iff_bytes (x y : Byte) (xs ys : List Byte) :
    x :: xs < y :: ys ↔ x < y ∨ (x = y ∧ xs < ys) := by
  constructor
  · intro h
    cases h with
    | cons h1 => exact Or.inr ⟨rfl, h1⟩
    | rel h1 => exact Or.inl h1
  · rintro (h | ⟨rfl, h⟩)
    · exact List.Lex.rel h
    · exact List.Lex.cons h

theorem compare_contents_eq (xs ys : List Byte) :
    compare_contents xs ys = if xs < ys then -1 else if xs = ys then 0 else 1 := by
  induction xs generalizing ys with
  | nil =>
    cases ys with
    | nil => simp [compare_contents, traits_compare_bytes]
    | cons y ys =>
      have h : ([] : List Byte) < y :: ys := List.Lex.nil
      simp [compare_contents, traits_compare_bytes, h]
  | cons x xs ih =>
    cases ys with
    | nil =>
      have h : ¬ (x :: xs < ([] : List Byte)) := by intro h; cases h
      simp [compare_contents, traits_compare_bytes, h]
    | cons y ys =>
      have ih1 := ih ys
      simp only [compare_contents] at ih1 ⊢
      simp only [List.length_cons, Nat.succ_min_succ, List.take_succ_cons,
        traits_compare_bytes, cons_lt_cons_iff_bytes, Nat.add_lt_add_iff_right,
        gt_iff_lt, List.cons.injEq]
      rcases lt_trichotomy x y with hxy | hxy | hxy
      · simp [hxy]
      · subst hxy
        simpa using ih1
      · have h1 : ¬ x < y := not_lt.mpr hxy.le
        have h2 : x ≠ y := fun h => by subst h; exact lt_irrefl _ hxy
        simp [hxy, h1, h2]

/-! ## Valid views -/

theorem length_of_valid {v : shared_string_view} (h : Valid v) :
    v.length = v._end - v._begin := by
  obtain ⟨d, b, e⟩ := v
  cases d with
  | none => exact absurd h (by simp [Valid])
  | some d =>
    simp only [Valid] at h
    exact wsub_of_le h.1 (lt_of_le_of_lt h.2.1 h.2.2)

theorem content_length_of_valid {v : shared_string_view} (h : Valid v) :
    (content v).length = v.length := by
  rw [length_of_valid h]
  obtain ⟨d, b, e⟩ := v
  cases d with
  | none => exact absurd h (by simp [Valid])
  | some d =>
    simp only [Valid] at h
    simp only [content, List.length_take, List.length_drop]
    omega

theorem read_data_of_valid {v : shared_string_view} (h : Valid v) {n : Nat}
    (hn : n ≤ v.length) :
    ∃ p, v.data = .ok p ∧ p.read n = .ok ((content v).take n) := by
  rw [length_of_valid h] at hn
  obtain ⟨d, b, e⟩ := v
  cases d with
  | none => exact absurd h (by simp [Valid])
  | some d =>
    simp only [Valid] at h
    simp only at hn
    refine ⟨⟨d, b⟩, rfl, ?_⟩
    have h1 : b + n ≤ d.length := by omega
    simp only [Ptr.read, h1, if_true, content, List.take_take]
    rw [Nat.min_eq_left hn]

theorem compare_of_valid {a b : shared_string_view} (ha : Valid a) (hb : Valid b) :
    a.compare b = .ok (compare_contents (content a) (content b)) := by
  obtain ⟨p, hp, hpr⟩ := read_data_of_valid ha (Nat.min_le_left a.length b.length)
  obtain ⟨q, hq, hqr⟩ := read_data_of_valid hb (Nat.min_le_right a.length b.length)
  simp only [shared_string_view.compare, hp, hq, traits_compare, compare_contents,
    content_length_of_valid ha, content_length_of_valid hb, bind, Except.bind, hpr, hqr,
    pure, Except.pure]
  split_ifs <;> rfl

theorem lt_append_of_ne_nil (xs t : List Byte) (ht : t ≠ []) : xs < xs ++ t := by
  induction xs with
  | nil =>
    cases t with
    | nil => exact absurd rfl ht
    | cons y ys => exact List.Lex.nil
  | cons x xs ih => exact List.Lex.cons ih

theorem op_lt_of_valid {a b : shared_string_view} (ha : Valid a) (hb : Valid b) :
    op_lt a b = .ok (decide (content a < content b)) := by
  simp only [op_lt, compare_of_valid ha hb, compare_contents_eq, bind, Except.bind, pure,
    Except.pure]
  split_ifs <;> simp_all

theorem op_eq_of_valid {a b : shared_string_view} (ha : Valid a) (hb : Valid b) :
    op_eq a b = .ok (decide (content a = content b)) := by
  simp only [op_eq, compare_of_valid ha hb, compare_contents_eq, bind, Except.bind, pure,
    Except.pure]
  split_ifs with h1 h2
  · have h3 : content a ≠ content b := ne_of_lt h1
    simp [h3]
  · simp [h2]
  · simp [h2]

/-! ## Comparison -/

/-- C1: for views `a`, `b` that satisfy the offset invariant
`_begin ≤ _end ≤ length (buffer)`, `a.compare (b)` returns an integer whose sign
is the lexicographic (byte-wise, `List.Lex`) order of the logical contents:
negative iff `content a < content b`, which includes every proper prefix, zero
iff the contents are equal, positive iff `content b < content a`. -/
theorem compare_sign_lexicographic (a b : shared_string_view)
    (ha : Valid a) (hb : Valid b) :
    ∃ c : Int, a.compare b = .ok c ∧
      (c < 0 ↔ content a < content b) ∧
      (c = 0 ↔ content a = content b) ∧
      (0 < c ↔ content b < content a) ∧
      (∀ t : List Byte, t ≠ [] → content b = content a ++ t → c < 0) := by
  refine ⟨_, compare_of_valid ha hb, ?_⟩
  rw [compare_contents_eq]
  have key : ∀ t : List Byte, t ≠ [] → content b = content a ++ t →
      content a < content b := fun t ht hb => hb ▸ lt_append_of_ne_nil _ t ht
  rcases lt_trichotomy (content a) (content b) with h | h | h
  · have h1 : content a ≠ content b := ne_of_lt h
    have h2 : ¬ content b < content a := lt_asymm h
    simp [h, h1, h2]
  · have h1 : ¬ content a < content b := h ▸ lt_irrefl _
    have h2 : ¬ content b < content a := h ▸ lt_irrefl _
    refine ⟨?_, ?_, ?_, fun t ht hb => absurd (key t ht hb) h1⟩ <;> simp [h, h1, h2]
  · have h1 : ¬ content a < content b := lt_asymm h
    have h2 : content a ≠ content b := (ne_of_lt h).symm
    refine ⟨?_, ?_, ?_, fun t ht hb => absurd (key t ht hb) h1⟩ <;> simp [h, h1, h2]

theorem compare_sign_lexicographic_witness :
    ∃ c : Int,
      (shared_string_view.mk (some hello_world) 6 8).compare
        (shared_string_view.mk (some world) 0 5) = .ok c ∧
      (c < 0 ↔ content (shared_string_view.mk (some hello_world) 6 8)
        < content (shared_string_view.mk (some world) 0 5)) ∧
      (c = 0 ↔ content (shared_string_view.mk (some hello_world) 6 8)
        = content (shared_string_view.mk (some world) 0 5)) ∧
      (0 < c ↔ content (shared_string_view.mk (some world) 0 5)
        < content (shared_string_view.mk (some hello_world) 6 8)) ∧
      (∀ t : List Byte, t ≠ [] →
        content (shared_string_view.mk (some world) 0 5)
          = content (shared_string_view.mk (some hello_world) 6 8) ++ t → c < 0) :=
  compare_sign_lexicographic _ _ (by decide) (by decide)

/-- C2: for valid views `a`, `b`, `a == b` returns a value, and that value is
`true` exactly when the logical contents are the same byte sequence, that is
have the same length and the same byte at every position; nothing is assumed
about the buffers or the offsets of the two views. -/
theorem op_eq_iff_same_content (a b : shared_string_view)
    (ha : Valid a) (hb : Valid b) :
    ∃ r : Bool, op_eq a b = .ok r ∧
      (r = true ↔ content a = content b) ∧
      (r = true ↔ ((content a).length = (content b).length ∧
        ∀ i : Nat, (content a)[i]? = (content b)[i]?)) := by
  refine ⟨_, op_eq_of_valid ha hb, by simp, ?_⟩
  simp only [decide_eq_true_eq]
  constructor
  · intro h
    simp [h]
  · rintro ⟨-, h⟩
    exact List.ext_getElem? h

theorem op_eq_iff_same_content_witness :
    ∃ r : Bool,
      op_eq (shared_string_view.mk (some hello_world) 6 11)
        (shared_string_view.mk (some world) 0 5) = .ok r ∧
      (r = true ↔ content (shared_string_view.mk (some hello_world) 6 11)
        = content (shared_string_view.mk (some world) 0 5)) ∧
      (r = true ↔
        ((content (shared_string_view.mk (some hello_world) 6 11)).length
            = (content (shared_string_view.mk (some world) 0 5)).length ∧
          ∀ i : Nat, (content (shared_string_view.mk (some hello_world) 6 11))[i]?
            = (content (shared_string_view.mk (some world) 0 5))[i]?)) :=
  op_eq_iff_same_content _ _ (by decide) (by decide)

/-! ## Narrowing with `subseq` -/

/-- C3: on the whole view of `hello`, where `1 ≤ 3 ≤ length`, `subseq (v, 1, 3)`
is the view with offsets `[1, 4)`: its length is `3`, the parameter `end`, and
its content is `ell`, not the two bytes `el` at `[1, 3)` of the content of `v`.
The suffix to remove is measured by `s.length () - end` after the prefix is
already gone. With `3 ≤ 5 ≤ length` the result `[3, 8)` even leaves the
buffer of five bytes. -/
theorem subseq_end_taken_as_length :
    Valid (of_string hello) ∧
    1 ≤ 3 ∧ 3 ≤ (of_string hello).length ∧
    subseq (of_string hello) 1 3 = shared_string_view.mk (some hello) 1 4 ∧
    (subseq (of_string hello) 1 3).length = 3 ∧
    content (subseq (of_string hello) 1 3) = [101, 108, 108] ∧
    ((content (of_string hello)).drop 1).take (3 - 1) = [101, 108] ∧
    to_string (subseq (of_string hello) 1 3) = .ok [101, 108, 108] ∧
    subseq (of_string hello) 3 5 = shared_string_view.mk (some hello) 3 8 ∧
    ¬ Valid (subseq (of_string hello) 3 5) := by
  refine ⟨by decide, by decide, by decide, by decide, by decide, by decide, by decide, rfl,
    by decide, by decide⟩

/-- C4: on the whole view `v` of `abcdefgh` (length `8 ≥ 5`),
`subseq (subseq (v, 1, 5), 1, 3)` has content `cde` and `subseq (v, 2, 4)` has
content `cdef`; the two do not compare equal. -/
theorem subseq_composition_differs :
    Valid (of_string abcdefgh) ∧
    5 ≤ (of_string abcdefgh).length ∧
    content (subseq (subseq (of_string abcdefgh) 1 5) 1 3) = [99, 100, 101] ∧
    content (subseq (of_string abcdefgh) 2 4) = [99, 100, 101, 102] ∧
    (subseq (subseq (of_string abcdefgh) 1 5) 1 3).compare
      (subseq (of_string abcdefgh) 2 4) = .ok (-1) ∧
    op_eq (subseq (subseq (of_string abcdefgh) 1 5) 1 3)
      (subseq (of_string abcdefgh) 2 4) = .ok false := by
  refine ⟨by decide, by decide, by decide, by decide, rfl, rfl⟩

/-! ## Element access -/

/-- C5: the view of `hello world` narrowed by `remove_suffix (6)` is valid, has
length `5` and content `hello`, and `at (5)`, one past its end, returns the
blank at offset `5` of the buffer instead of failing: the index is checked
against the length of the buffer, not of the view. -/
theorem at_past_end_of_narrowed_view_succeeds :
    Valid (remove_suffix (of_string hello_world) 6) ∧
    (remove_suffix (of_string hello_world) 6).length = 5 ∧
    content (remove_suffix (of_string hello_world) 6) = hello ∧
    (remove_suffix (of_string hello_world) 6).at
      (remove_suffix (of_string hello_world) 6).length = .ok 32 ∧
    (remove_suffix (of_string hello_world) 6).at 5 ≠ .error Fault.out_of_range := by
  refine ⟨by decide, by decide, by decide, rfl, ?_⟩
  intro h
  cases h

/-- C6: for every valid view that is not empty, `at (length () - 1)` returns a
byte (no error), `back ()` returns the same byte, and it is the last byte of
the logical content. -/
theorem at_last_eq_back (v : shared_string_view) (hv : Valid v)
    (hne : v.empty = false) :
    ∃ c : Byte, v.at (wsub v.length 1) = .ok c ∧ v.back = .ok c ∧
      (content v).getLast? = some c := by
  have hl := length_of_valid hv
  obtain ⟨d, b, e⟩ := v
  cases d with
  | none => exact absurd hv (by simp [Valid])
  | some d =>
    simp only [Valid] at hv
    simp only [shared_string_view.empty, beq_eq_false_iff_ne, ne_eq] at hne
    simp only at hl
    obtain ⟨h1, h2, h3⟩ := hv
    have hlt : e - 1 < d.length := by omega
    have hw : wadd b (wsub (shared_string_view.length ⟨some d, b, e⟩) 1) = e - 1 := by
      rw [hl, wsub_of_le (by omega) (by omega), wadd_of_lt (by omega)]
      omega
    refine ⟨d[e - 1], ?_, ?_, ?_⟩
    · simp only [shared_string_view.at, hw, string_at, List.getElem?_eq_getElem hlt]
    · have h0 : ¬ (e = 0) := by omega
      simp only [shared_string_view.back, shared_string_view.rbegin, bind, Except.bind,
        RevIter.deref, Nat.zero_add, h0, if_false, Iter.deref,
        List.getElem?_eq_getElem hlt]
    · have hlen : (List.take (e - b) (List.drop b d)).length = e - b := by
        simp only [List.length_take, List.length_drop]
        omega
      have hi : e - b - 1 < e - b := by omega
      simp only [content]
      rw [List.getLast?_eq_getElem?, hlen, List.getElem?_take_of_lt hi, List.getElem?_drop,
        show b + (e - b - 1) = e - 1 by omega, List.getElem?_eq_getElem hlt]

theorem at_last_eq_back_witness :
    ∃ c : Byte,
      (shared_string_view.mk (some hello_world) 2 5).at
        (wsub (shared_string_view.mk (some hello_world) 2 5).length 1) = .ok c ∧
      (shared_string_view.mk (some hello_world) 2 5).back = .ok c ∧
      (content (shared_string_view.mk (some hello_world) 2 5)).getLast? = some c :=
  at_last_eq_back _ (by decide) (by decide)

/-! ## Ordering, hashing -/

/-- C7: on valid views the relation `a < b` (`a.compare (b) < 0`) is a strict
weak ordering: it is irreflexive and transitive, two views are incomparable
exactly when `a == b`, and incomparability is transitive; moreover
`ab < aba`, `aba < abb` and `x == x`. -/
theorem op_lt_strict_weak_order (a b c : shared_string_view)
    (ha : Valid a) (hb : Valid b) (hc : Valid c) :
    op_lt a a = .ok false ∧
    (op_lt a b = .ok true → op_lt b c = .ok true → op_lt a c = .ok true) ∧
    ((op_lt a b = .ok false ∧ op_lt b a = .ok false) ↔ op_eq a b = .ok true) ∧
    ((op_lt a b = .ok false ∧ op_lt b a = .ok false) →
      (op_lt b c = .ok false ∧ op_lt c b = .ok false) →
      (op_lt a c = .ok false ∧ op_lt c a = .ok false)) ∧
    op_lt (of_string ab) (of_string aba) = .ok true ∧
    op_lt (of_string aba) (of_string abb) = .ok true ∧
    op_eq (of_string x_text) (of_string x_text) = .ok true := by
  simp only [op_lt_of_valid ha ha, op_lt_of_valid ha hb, op_lt_of_valid hb ha,
    op_lt_of_valid hb hc, op_lt_of_valid hc hb, op_lt_of_valid ha hc, op_lt_of_valid hc ha,
    op_eq_of_valid ha hb, Except.ok.injEq, decide_eq_true_eq, decide_eq_false_iff_not,
    lt_irrefl, not_false_eq_true, true_and, not_lt]
  refine ⟨fun h1 h2 => lt_trans h1 h2, ⟨fun h => le_antisymm h.2 h.1, fun h => ⟨h.ge, h.le⟩⟩,
    fun h1 h2 => ⟨le_trans h2.1 h1.1, le_trans h1.2 h2.2⟩, rfl, rfl, rfl⟩

theorem op_lt_strict_weak_order_witness :
    op_lt (of_string ab) (of_string ab) = .ok false ∧
    (op_lt (of_string ab) (of_string aba) = .ok true →
      op_lt (of_string aba) (of_string abb) = .ok true →
      op_lt (of_string ab) (of_string abb) = .ok true) ∧
    ((op_lt (of_string ab) (of_string aba) = .ok false ∧
      op_lt (of_string aba) (of_string ab) = .ok false) ↔
      op_eq (of_string ab) (of_string aba) = .ok true) ∧
    ((op_lt (of_string ab) (of_string aba) = .ok false ∧
      op_lt (of_string aba) (of_string ab) = .ok false) →
      (op_lt (of_string aba) (of_string abb) = .ok false ∧
        op_lt (of_string abb) (of_string aba) = .ok false) →
      (op_lt (of_string ab) (of_string abb) = .ok false ∧
        op_lt (of_string abb) (of_string ab) = .ok false)) ∧
    op_lt (of_string ab) (of_string aba) = .ok true ∧
    op_lt (of_string aba) (of_string abb) = .ok true ∧
    op_eq (of_string x_text) (of_string x_text) = .ok true :=
  op_lt_strict_weak_order (of_string ab) (of_string aba) (of_string abb)
    (by decide) (by decide) (by decide)

theorem hash_of_valid (h : List Byte → Nat) {v : shared_string_view} (hv : Valid v) :
    hash h v = .ok (h (content v)) := by
  obtain ⟨p, hp, hpr⟩ := read_data_of_valid hv (le_refl v.length)
  rw [← content_length_of_valid hv, List.take_length] at hpr
  rw [content_length_of_valid hv] at hpr
  simp only [hash, to_string_view, shared_string_view.to_std_string_view, hp, bind,
    Except.bind, pure, Except.pure, shared_string_view.size]
  simp only [shared_string_view.length] at hpr
  rw [hpr]

/-- C8: for valid views `a`, `b` and any hash `h` of the library on the bytes
of a `string_view`, the hash of a view is `h` applied to its logical content,
so that `a == b` implies equal hashes, whatever the buffers and offsets. -/
theorem hash_eq_of_op_eq (h : List Byte → Nat) (a b : shared_string_view)
    (ha : Valid a) (hb : Valid b) :
    hash h a = .ok (h (content a)) ∧ hash h b = .ok (h (content b)) ∧
    (op_eq a b = .ok true → hash h a = hash h b) := by
  refine ⟨hash_of_valid h ha, hash_of_valid h hb, ?_⟩
  intro heq
  rw [op_eq_of_valid ha hb] at heq
  simp only [Except.ok.injEq, decide_eq_true_eq] at heq
  rw [hash_of_valid h ha, hash_of_valid h hb, heq]

theorem hash_eq_of_op_eq_witness :
    hash List.length (shared_string_view.mk (some hello_world) 6 11)
      = .ok (List.length (content (shared_string_view.mk (some hello_world) 6 11))) ∧
    hash List.length (of_string world) = .ok (List.length (content (of_string world))) ∧
    (op_eq (shared_string_view.mk (some hello_world) 6 11) (of_string world) = .ok true →
      hash List.length (shared_string_view.mk (some hello_world) 6 11)
        = hash List.length (of_string world)) :=
  hash_eq_of_op_eq List.length _ _ (by decide) (by decide)

/-! ## Narrowing with `remove_prefix` and `remove_suffix`, round trip -/

theorem content_take_drop (d : List Byte) (b e n m : Nat) (h1 : b ≤ e)
    (h2 : e ≤ d.length) (h : n + m ≤ e - b) :
    List.take (e - m - (b + n)) (List.drop (b + n) d)
      = (List.drop n (List.take (e - b) (List.drop b d))).rdrop m := by
  have hlen : (List.drop n (List.take (e - b) (List.drop b d))).length = e - b - n := by
    simp only [List.length_take, List.length_drop]
    omega
  rw [List.rdrop, hlen, List.drop_take, List.take_take, List.drop_drop,
    show e - b - n - m = e - m - (b + n) by omega,
    Nat.min_eq_left (by omega)]

/-- C9: for a valid view `v` and `n + m ≤ v.length ()`, the view after
`remove_prefix (n)` and then `remove_suffix (m)` is valid, has the buffer of
`v`, offsets `_begin + n` and `_end - m`, a length smaller by `n + m`, and its
content is the content of `v` without its first `n` and last `m` bytes.
Instance: `hello world` after `remove_prefix (6)` and `remove_suffix (0)` has
content `world` and compares `0` against a fresh view of `world`. -/
theorem remove_prefix_then_suffix (v : shared_string_view) (n m : Nat)
    (hv : Valid v) (h : n + m ≤ v.length) :
    Valid (remove_suffix ( remove_prefix v n) m) ∧
    (remove_suffix ( remove_prefix v n) m)._data = v._data ∧
    (remove_suffix ( remove_prefix v n) m)._begin = v._begin + n ∧
    (remove_suffix ( remove_prefix v n) m)._end = v._end - m ∧
    (remove_suffix ( remove_prefix v n) m).length = v.length - (n + m) ∧
    content (remove_suffix ( remove_prefix v n) m) = ((content v).drop n).rdrop m ∧
    content (remove_suffix ( remove_prefix (of_string hello_world) 6) 0) = world ∧
    (remove_suffix ( remove_prefix (of_string hello_world) 6) 0).compare (of_string world)
      = .ok 0 := by
  have hl := length_of_valid hv
  rw [hl] at h
  obtain ⟨d, b, e⟩ := v
  cases d with
  | none => exact absurd hv (by simp [Valid])
  | some d =>
    simp only [Valid] at hv
    simp only at h hl
    obtain ⟨h1, h2, h3⟩ := hv
    have hb : wadd b n = b + n := wadd_of_lt (by omega)
    have he : wsub e m = e - m := wsub_of_le (by omega) (by omega)
    have hw : remove_suffix ( remove_prefix ⟨some d, b, e⟩ n) m = ⟨some d, b + n, e - m⟩ := by
      simp only [shared_string_view.remove_suffix, shared_string_view.remove_prefix, hb, he]
    have hvw : Valid ⟨some d, b + n, e - m⟩ := by
      simp only [Valid]
      omega
    rw [hw]
    refine ⟨hvw, rfl, rfl, rfl, ?_, ?_, by decide, rfl⟩
    · rw [length_of_valid hvw, hl]
      simp only
      omega
    · simp only [content]
      exact content_take_drop d b e n m h1 h2 h

theorem remove_prefix_then_suffix_witness :
    Valid (remove_suffix ( remove_prefix (shared_string_view.mk (some hello_world) 1 10) 3) 2) ∧
    (remove_suffix ( remove_prefix (shared_string_view.mk (some hello_world) 1 10) 3) 2)._data
      = (shared_string_view.mk (some hello_world) 1 10)._data ∧
    (remove_suffix ( remove_prefix (shared_string_view.mk (some hello_world) 1 10) 3) 2)._begin
      = (shared_string_view.mk (some hello_world) 1 10)._begin + 3 ∧
    (remove_suffix ( remove_prefix (shared_string_view.mk (some hello_world) 1 10) 3) 2)._end
      = (shared_string_view.mk (some hello_world) 1 10)._end - 2 ∧
    (remove_suffix ( remove_prefix (shared_string_view.mk (some hello_world) 1 10) 3) 2).length
      = (shared_string_view.mk (some hello_world) 1 10).length - (3 + 2) ∧
    content (remove_suffix ( remove_prefix (shared_string_view.mk (some hello_world) 1 10) 3) 2)
      = ((content (shared_string_view.mk (some hello_world) 1 10)).drop 3).rdrop 2 ∧
    content (remove_suffix ( remove_prefix (of_string hello_world) 6) 0) = world ∧
    (remove_suffix ( remove_prefix (of_string hello_world) 6) 0).compare (of_string world)
      = .ok 0 :=
  remove_prefix_then_suffix (shared_string_view.mk (some hello_world) 1 10) 3 2
    (by decide) (by decide)

theorem to_string_of_valid {v : shared_string_view} (hv : Valid v) :
    to_string v = .ok (content v) := by
  obtain ⟨d, b, e⟩ := v
  cases d with
  | none => exact absurd hv (by simp [Valid])
  | some d =>
    simp only [Valid] at hv
    have h : b ≤ e ∧ e ≤ d.length := ⟨hv.1, hv.2.1⟩
    simp only [to_string, shared_string_view.to_std_string, shared_string_view.begin,
      shared_string_view.end, bind, Except.bind, h, and_self, if_true, content, pure,
      Except.pure]

theorem valid_of_string_content {v : shared_string_view} (hv : Valid v) :
    Valid (of_string (content v)) := by
  have h1 := content_length_of_valid hv
  have h2 := length_of_valid hv
  obtain ⟨d, b, e⟩ := v
  cases d with
  | none => exact absurd hv (by simp [Valid])
  | some d =>
    simp only [Valid, of_string] at hv ⊢
    simp only at h2
    rw [h1, h2]
    omega

theorem content_of_string (s : List Byte) : content (of_string s) = s := by
  simp [content, of_string]

/-- C10: for every valid view `v`, `to_string (v)` returns a text `s`, the
logical content of `v`; the view constructed from `s` compares equal to `v`
(in both directions), has the same logical content, and its `to_string` is `s`
again. -/
theorem to_string_round_trip (v : shared_string_view) (hv : Valid v) :
    ∃ s : List Byte, to_string v = .ok s ∧ s = content v ∧
      op_eq (of_string s) v = .ok true ∧
      op_eq v (of_string s) = .ok true ∧
      content (of_string s) = content v ∧
      to_string (of_string s) = .ok s := by
  have hw := valid_of_string_content hv
  refine ⟨content v, to_string_of_valid hv, rfl, ?_, ?_, content_of_string _, ?_⟩
  · rw [op_eq_of_valid hw hv, content_of_string]
    simp
  · rw [op_eq_of_valid hv hw, content_of_string]
    simp
  · rw [to_string_of_valid hw, content_of_string]

theorem to_string_round_trip_witness :
    ∃ s : List Byte, to_string (shared_string_view.mk (some hello_world) 6 11) = .ok s ∧
      s = content (shared_string_view.mk (some hello_world) 6 11) ∧
      op_eq (of_string s) (shared_string_view.mk (some hello_world) 6 11) = .ok true ∧
      op_eq (shared_string_view.mk (some hello_world) 6 11) (of_string s) = .ok true ∧
      content (of_string s) = content (shared_string_view.mk (some hello_world) 6 11) ∧
      to_string (of_string s) = .ok s :=
  to_string_round_trip _ (by decide)

/-! ## Construction and the invariant -/

/-- C11: for every text `s` (a `std::string`, whose length is a `size_type`),
the view constructed from `s` has `_begin = 0` and `_end = length (s)`, its
`size ()` and `length ()` are the length of `s`, and `to_string` of it returns
exactly `s`. -/
theorem of_string_spans_text (s : List Byte) (hs : s.length < SIZE_MOD) :
    (of_string s)._data = some s ∧
    (of_string s)._begin = 0 ∧
    (of_string s)._end = s.length ∧
    (of_string s).size = s.length ∧
    (of_string s).length = s.length ∧
    to_string (of_string s) = .ok s := by
  have hv : Valid (of_string s) := by
    simp only [Valid, of_string]
    omega
  refine ⟨rfl, rfl, rfl, ?_, ?_, ?_⟩
  · exact (length_of_valid hv).trans (by simp [of_string])
  · exact (length_of_valid hv).trans (by simp [of_string])
  · rw [to_string_of_valid hv, content_of_string]

theorem of_string_spans_text_witness :
    (of_string hello_world)._data = some hello_world ∧
    (of_string hello_world)._begin = 0 ∧
    (of_string hello_world)._end = hello_world.length ∧
    (of_string hello_world).size = hello_world.length ∧
    (of_string hello_world).length = hello_world.length ∧
    to_string (of_string hello_world) = .ok hello_world :=
  of_string_spans_text hello_world (by decide)

theorem inv_of_string {s : List Byte} (hs : s.length < SIZE_MOD) : Inv (of_string s) := by
  simp only [Inv, of_string]
  omega

theorem inv_length {v : shared_string_view} (hv : Inv v) : v.length = v._end - v._begin := by
  obtain ⟨d, b, e⟩ := v
  cases d with
  | none =>
    simp only [Inv] at hv
    obtain ⟨rfl, rfl⟩ := hv
    rfl
  | some d =>
    simp only [Inv] at hv
    exact wsub_of_le hv.1 (lt_of_le_of_lt hv.2.1 hv.2.2)

theorem inv_remove_prefix {v : shared_string_view} {n : Nat} (hv : Inv v)
    (hn : n ≤ v.length) :
    Inv ( remove_prefix v n) ∧ ( remove_prefix v n)._begin = v._begin + n := by
  rw [inv_length hv] at hn
  obtain ⟨d, b, e⟩ := v
  cases d with
  | none =>
    simp only [Inv] at hv
    obtain ⟨rfl, rfl⟩ := hv
    have h0 : n = 0 := by simpa using hn
    subst h0
    exact ⟨by decide, rfl⟩
  | some d =>
    simp only [Inv] at hv
    have h1 : b ≤ e := hv.1
    have h2 : e ≤ d.length := hv.2.1
    have h3 : d.length < SIZE_MOD := hv.2.2
    have hn1 : n ≤ e - b := hn
    have hb : wadd b n = b + n := wadd_of_lt (by omega)
    have hw : remove_prefix ⟨some d, b, e⟩ n = ⟨some d, b + n, e⟩ := by
      simp only [shared_string_view.remove_prefix, hb]
    rw [hw]
    refine ⟨?_, rfl⟩
    simp only [Inv]
    omega

theorem inv_remove_suffix {v : shared_string_view} {n : Nat} (hv : Inv v)
    (hn : n ≤ v.length) :
    Inv (remove_suffix v n) ∧ (remove_suffix v n)._end = v._end - n := by
  rw [inv_length hv] at hn
  obtain ⟨d, b, e⟩ := v
  cases d with
  | none =>
    simp only [Inv] at hv
    obtain ⟨rfl, rfl⟩ := hv
    have h0 : n = 0 := by simpa using hn
    subst h0
    exact ⟨by decide, rfl⟩
  | some d =>
    simp only [Inv] at hv
    have h1 : b ≤ e := hv.1
    have h2 : e ≤ d.length := hv.2.1
    have h3 : d.length < SIZE_MOD := hv.2.2
    have hn1 : n ≤ e - b := hn
    have he : wsub e n = e - n := wsub_of_le (by omega) (by omega)
    have hw : remove_suffix ⟨some d, b, e⟩ n = ⟨some d, b, e - n⟩ := by
      simp only [shared_string_view.remove_suffix, he]
    rw [hw]
    refine ⟨?_, rfl⟩
    simp only [Inv]
    omega

/-- C12: the invariant (`_begin ≤ _end ≤ length (buffer)` with a buffer,
`_begin = _end = 0` without) holds for the view produced by each constructor:
from a text, from a `string_view` that lies in its memory, from a
null-terminated `const char*`, the default one, and the copy and the move of a
view that has it. For `n ≤ length ()` it is preserved by `remove_prefix (n)`,
which only adds `n` to `_begin` and leaves `_end`, and by `remove_suffix (n)`,
which only subtracts `n` from `_end` and leaves `_begin`; `swap` preserves it
on both views. -/
theorem invariant_established_and_preserved
    (s : List Byte) (sv : string_view) (p : Ptr) (v w : shared_string_view) (n : Nat)
    (hs : s.length < SIZE_MOD)
    (hsv : sv.ptr.off + sv.len ≤ sv.ptr.buf.length) (hsvlen : sv.ptr.buf.length < SIZE_MOD)
    (hp : (0 : Byte) ∈ p.buf.drop p.off) (hplen : p.buf.length < SIZE_MOD)
    (hv : Inv v) (hw : Inv w) (hn : n ≤ v.length) :
    Inv (of_string s) ∧
    (∃ x, of_string_view sv = .ok x ∧ Inv x) ∧
    (∃ x, of_c_str p = .ok x ∧ Inv x) ∧
    Inv shared_string_view.default ∧
    Inv (copy_construct v) ∧
    Inv (move_construct v).1 ∧
    (Inv ( remove_prefix v n) ∧ v._begin ≤ ( remove_prefix v n)._begin ∧
      ( remove_prefix v n)._begin = v._begin + n ∧
      ( remove_prefix v n)._end = v._end ∧ ( remove_prefix v n)._data = v._data) ∧
    (Inv (remove_suffix v n) ∧ (remove_suffix v n)._end ≤ v._end ∧
      (remove_suffix v n)._end = v._end - n ∧
      (remove_suffix v n)._begin = v._begin ∧ (remove_suffix v n)._data = v._data) ∧
    (Inv (v.swap w).1 ∧ Inv (v.swap w).2 ∧ (v.swap w).1 = w ∧ (v.swap w).2 = v) := by
  refine ⟨inv_of_string hs, ?_, ?_, by decide, hv, hv, ?_, ?_, hw, hv, rfl, rfl⟩
  · refine ⟨of_string ((sv.ptr.buf.drop sv.ptr.off).take sv.len), ?_, ?_⟩
    · simp only [of_string_view, Ptr.read, hsv, if_true, bind, Except.bind, pure, Except.pure]
    · apply inv_of_string
      simp only [List.length_take, List.length_drop]
      omega
  · refine ⟨of_string ((p.buf.drop p.off).takeWhile (fun c => c ≠ 0)), ?_, ?_⟩
    · simp only [of_c_str, c_string, hp, if_true, bind, Except.bind, pure, Except.pure]
    · apply inv_of_string
      have h1 := List.Sublist.length_le
        (List.takeWhile_sublist (l := p.buf.drop p.off) (fun c => decide (c ≠ 0)))
      simp only [List.length_drop] at h1
      omega
  · obtain ⟨h1, h2⟩ := inv_remove_prefix hv hn
    exact ⟨h1, by omega, h2, rfl, rfl⟩
  · obtain ⟨h1, h2⟩ := inv_remove_suffix hv hn
    exact ⟨h1, by omega, h2, rfl, rfl⟩

theorem invariant_established_and_preserved_witness :
    Inv (of_string hello) ∧
    (∃ x, of_string_view ⟨⟨hello_world, 6⟩, 5⟩ = .ok x ∧ Inv x) ∧
    (∃ x, of_c_str ⟨[104, 105, 0, 33], 0⟩ = .ok x ∧ Inv x) ∧
    Inv shared_string_view.default ∧
    Inv (copy_construct (shared_string_view.mk (some hello_world) 2 9)) ∧
    Inv (move_construct (shared_string_view.mk (some hello_world) 2 9)).1 ∧
    (Inv ( remove_prefix (shared_string_view.mk (some hello_world) 2 9) 7) ∧
      (shared_string_view.mk (some hello_world) 2 9)._begin
        ≤ ( remove_prefix (shared_string_view.mk (some hello_world) 2 9) 7)._begin ∧
      ( remove_prefix (shared_string_view.mk (some hello_world) 2 9) 7)._begin
        = (shared_string_view.mk (some hello_world) 2 9)._begin + 7 ∧
      ( remove_prefix (shared_string_view.mk (some hello_world) 2 9) 7)._end
        = (shared_string_view.mk (some hello_world) 2 9)._end ∧
      ( remove_prefix (shared_string_view.mk (some hello_world) 2 9) 7)._data
        = (shared_string_view.mk (some hello_world) 2 9)._data) ∧
    (Inv (remove_suffix (shared_string_view.mk (some hello_world) 2 9) 7) ∧
      (remove_suffix (shared_string_view.mk (some hello_world) 2 9) 7)._end
        ≤ (shared_string_view.mk (some hello_world) 2 9)._end ∧
      (remove_suffix (shared_string_view.mk (some hello_world) 2 9) 7)._end
        = (shared_string_view.mk (some hello_world) 2 9)._end - 7 ∧
      (remove_suffix (shared_string_view.mk (some hello_world) 2 9) 7)._begin
        = (shared_string_view.mk (some hello_world) 2 9)._begin ∧
      (remove_suffix (shared_string_view.mk (some hello_world) 2 9) 7)._data
        = (shared_string_view.mk (some hello_world) 2 9)._data) ∧
    (Inv ((shared_string_view.mk (some hello_world) 2 9).swap shared_string_view.default).1 ∧
      Inv ((shared_string_view.mk (some hello_world) 2 9).swap shared_string_view.default).2 ∧
      ((shared_string_view.mk (some hello_world) 2 9).swap shared_string_view.default).1
        = shared_string_view.default ∧
      ((shared_string_view.mk (some hello_world) 2 9).swap shared_string_view.default).2
        = shared_string_view.mk (some hello_world) 2 9) :=
  invariant_established_and_preserved hello ⟨⟨hello_world, 6⟩, 5⟩ ⟨[104, 105, 0, 33], 0⟩
    (shared_string_view.mk (some hello_world) 2 9) shared_string_view.default 7
    (by decide) (by decide) (by decide) (by decide) (by decide) (by decide) (by decide)
    (by decide)

/-! ## The default view, derived operators -/

/-- C13: the default-constructed view has `length () = 0` and `empty ()` true,
but `compare` and `==` on it do not return: `data ()` dereferences the null
`_data`, whatever the other view is (default-constructed, built from the empty
text, or narrowed to zero length over `hello`), and in either argument
position. Empty views that have a buffer do compare equal to each other. -/
theorem default_view_compare_undefined :
    shared_string_view.default.length = 0 ∧
    shared_string_view.default.size = 0 ∧
    shared_string_view.default.empty = true ∧
    shared_string_view.default.compare shared_string_view.default
      = .error Fault.undefined ∧
    shared_string_view.default.compare (of_string []) = .error Fault.undefined ∧
    (of_string []).compare shared_string_view.default = .error Fault.undefined ∧
    shared_string_view.default.compare ( remove_prefix (of_string hello) 5)
      = .error Fault.undefined ∧
    op_eq shared_string_view.default shared_string_view.default = .error Fault.undefined ∧
    op_eq shared_string_view.default (of_string []) = .error Fault.undefined ∧
    (( remove_prefix (of_string hello) 5).empty = true ∧
      (of_string []).compare ( remove_prefix (of_string hello) 5) = .ok 0 ∧
      op_eq (of_string []) ( remove_prefix (of_string hello) 5) = .ok true) := by
  refine ⟨by decide, by decide, by decide, rfl, rfl, rfl, rfl, rfl, rfl, by decide, rfl, rfl⟩

/-- C14: for valid views `a`, `b`, with `c` the value of `a.compare (b)`, the
operators return `a == b` iff `c = 0`, `a != b` iff `c ≠ 0`, `a < b` iff
`c < 0`, `a > b` iff `c > 0`, `a <= b` iff `c ≤ 0` and `a >= b` iff `c ≥ 0`. -/
theorem derived_operators_agree_with_compare (a b : shared_string_view)
    (ha : Valid a) (hb : Valid b) :
    ∃ c : Int, a.compare b = .ok c ∧
      op_eq a b = .ok (decide (c = 0)) ∧
      op_ne a b = .ok (decide (c ≠ 0)) ∧
      op_lt a b = .ok (decide (c < 0)) ∧
      op_gt a b = .ok (decide (c > 0)) ∧
      op_le a b = .ok (decide (c ≤ 0)) ∧
      op_ge a b = .ok (decide (c ≥ 0)) := by
  refine ⟨_, compare_of_valid ha hb, ?_⟩
  simp only [op_eq, op_ne, op_lt, op_gt, op_le, op_ge, compare_of_valid ha hb,
    compare_of_valid hb ha, compare_contents_eq, bind, Except.bind, pure, Except.pure]
  rcases lt_trichotomy (content a) (content b) with h | h | h
  · have h1 : content a ≠ content b := ne_of_lt h
    have h2 : ¬ content b < content a := lt_asymm h
    have h3 : content b ≠ content a := h1.symm
    simp [h, h1, h2, h3]
  · have h1 : ¬ content a < content b := h ▸ lt_irrefl _
    have h2 : ¬ content b < content a := h ▸ lt_irrefl _
    simp [h, h1, h2]
  · have h1 : ¬ content a < content b := lt_asymm h
    have h2 : content a ≠ content b := (ne_of_lt h).symm
    have h3 : content b ≠ content a := h2.symm
    simp [h, h1, h2, h3]

theorem derived_operators_agree_with_compare_witness :
    ∃ c : Int,
      (shared_string_view.mk (some hello_world) 0 5).compare
        (shared_string_view.mk (some hello_world) 6 11) = .ok c ∧
      op_eq (shared_string_view.mk (some hello_world) 0 5)
        (shared_string_view.mk (some hello_world) 6 11) = .ok (decide (c = 0)) ∧
      op_ne (shared_string_view.mk (some hello_world) 0 5)
        (shared_string_view.mk (some hello_world) 6 11) = .ok (decide (c ≠ 0)) ∧
      op_lt (shared_string_view.mk (some hello_world) 0 5)
        (shared_string_view.mk (some hello_world) 6 11) = .ok (decide (c < 0)) ∧
      op_gt (shared_string_view.mk (some hello_world) 0 5)
        (shared_string_view.mk (some hello_world) 6 11) = .ok (decide (c > 0)) ∧
      op_le (shared_string_view.mk (some hello_world) 0 5)
        (shared_string_view.mk (some hello_world) 6 11) = .ok (decide (c ≤ 0)) ∧
      op_ge (shared_string_view.mk (some hello_world) 0 5)
        (shared_string_view.mk (some hello_world) 6 11) = .ok (decide (c ≥ 0)) :=
  derived_operators_agree_with_compare _ _ (by decide) (by decide)

/-! ## Sharing -/

theorem store_run_other (st : Store) (w x : Nat) (ops : List Narrowing) (h : x ≠ w) :
    (st.run w ops) x = st x := by
  induction ops generalizing st with
  | nil => rfl
  | cons op ops ih =>
    simp only [Store.run, List.foldl_cons] at ih ⊢
    rw [ih (st.narrow w op)]
    simp only [Store.narrow, Store.set, h, if_false]

theorem narrowing_apply_data (op : Narrowing) (v : shared_string_view) :
    (op.apply v)._data = v._data := by
  cases op <;> rfl

theorem store_run_data (st : Store) (w : Nat) (ops : List Narrowing) :
    ((st.run w ops) w)._data = (st w)._data := by
  induction ops generalizing st with
  | nil => rfl
  | cons op ops ih =>
    simp only [Store.run, List.foldl_cons] at ih ⊢
    rw [ih (st.narrow w op)]
    simp only [Store.narrow, Store.set, if_true, narrowing_apply_data]

/-- C15: let the view object at `w` be copy-constructed from the one at `v`
(a different object) and then narrowed by any sequence of `remove_prefix` and
`remove_suffix` calls. The object at `v` is unchanged: same offsets, same
buffer with the same bytes, same length and logical content; every other
object but `w` is unchanged too, and `w` still holds the buffer of `v`. -/
theorem narrowing_copy_leaves_original (st : Store) (v w : Nat) (ops : List Narrowing)
    (h : v ≠ w) :
    ((st.copy w v).run w ops) v = st v ∧
    (((st.copy w v).run w ops) v)._begin = (st v)._begin ∧
    (((st.copy w v).run w ops) v)._end = (st v)._end ∧
    (((st.copy w v).run w ops) v)._data = (st v)._data ∧
    (((st.copy w v).run w ops) v).length = (st v).length ∧
    content (((st.copy w v).run w ops) v) = content (st v) ∧
    (((st.copy w v).run w ops) w)._data = (st v)._data ∧
    (∀ x, x ≠ w → ((st.copy w v).run w ops) x = st x) := by
  have key : ∀ x, x ≠ w → ((st.copy w v).run w ops) x = st x := by
    intro x hx
    rw [store_run_other _ _ _ _ hx]
    simp only [Store.copy, Store.set, hx, if_false]
  have hv := key v h
  refine ⟨hv, by rw [hv], by rw [hv], by rw [hv], by rw [hv], by rw [hv], ?_, key⟩
  rw [store_run_data]
  simp only [Store.copy, Store.set, if_true, copy_construct]

theorem narrowing_copy_leaves_original_witness :
    ((hello_store.copy 1 0).run 1 three_narrowings) 0 = hello_store 0 ∧
    (((hello_store.copy 1 0).run 1 three_narrowings) 0)._begin = (hello_store 0)._begin ∧
    (((hello_store.copy 1 0).run 1 three_narrowings) 0)._end = (hello_store 0)._end ∧
    (((hello_store.copy 1 0).run 1 three_narrowings) 0)._data = (hello_store 0)._data ∧
    (((hello_store.copy 1 0).run 1 three_narrowings) 0).length = (hello_store 0).length ∧
    content (((hello_store.copy 1 0).run 1 three_narrowings) 0) = content (hello_store 0) ∧
    (((hello_store.copy 1 0).run 1 three_narrowings) 1)._data = (hello_store 0)._data ∧
    (∀ x, x ≠ 1 → ((hello_store.copy 1 0).run 1 three_narrowings) x = hello_store x) :=
  narrowing_copy_leaves_original hello_store 0 1 three_narrowings (by decide)

/-! ## Unchecked narrowing -/

/-- C16, as stated, fails: on the whole view of `hello` (offsets `[0, 5)`),
`remove_suffix (6)` with `6 > length ()` wraps `_end` to `2^64 - 1`, so that
`_begin > _end` does not hold; and on the view `[1, 5)` of `hello`,
`remove_prefix (2^64 - 1)` wraps `_begin` to `0`: `_begin ≤ _end` and the
size is `5`, not a very large one. -/
theorem narrowing_past_length_need_not_give_begin_above_end :
    Valid (of_string hello) ∧
    6 > (of_string hello).length ∧
    (remove_suffix (of_string hello) 6)._begin = 0 ∧
    (remove_suffix (of_string hello) 6)._end = 18446744073709551615 ∧
    ¬ ((remove_suffix (of_string hello) 6)._begin > (remove_suffix (of_string hello) 6)._end) ∧
    Valid (shared_string_view.mk (some hello) 1 5) ∧
    18446744073709551615 > (shared_string_view.mk (some hello) 1 5).length ∧
    ( remove_prefix (shared_string_view.mk (some hello) 1 5) 18446744073709551615)
      = shared_string_view.mk (some hello) 0 5 ∧
    ( remove_prefix (shared_string_view.mk (some hello) 1 5) 18446744073709551615).size
      = 5 := by
  refine ⟨by decide, by decide, by decide, by decide, by decide, by decide, by decide,
    by decide, by decide⟩

/-- C16, amended: for every view and every `n`, the `size ()` after
`remove_prefix (n)` or `remove_suffix (n)` is `(old size - n) mod 2^64`; no
error is raised and nothing is clamped. For a valid view and
`length () < n < 2^64` that size is the wrapped value `2^64 + length () - n`,
and `_begin > _end` results whenever the offset itself does not wrap, that is
`_begin + n < 2^64` for `remove_prefix` and `n ≤ _end` for `remove_suffix`. -/
theorem narrowing_size_wraps (v : shared_string_view) (n : Nat) :
    ( remove_prefix v n).size = wsub v.size n ∧
    (remove_suffix v n).size = wsub v.size n ∧
    ( remove_prefix v n)._begin = (v._begin + n) % SIZE_MOD ∧
    (Valid v → v.length < n → n < SIZE_MOD →
      ( remove_prefix v n).size = SIZE_MOD + v.length - n ∧
      (remove_suffix v n).size = SIZE_MOD + v.length - n ∧
      (v._begin + n < SIZE_MOD → ( remove_prefix v n)._begin > ( remove_prefix v n)._end) ∧
      (n ≤ v._end → (remove_suffix v n)._begin > (remove_suffix v n)._end)) := by
  obtain ⟨d, b, e⟩ := v
  refine ⟨?_, ?_, rfl, ?_⟩
  · simp only [shared_string_view.size, shared_string_view.remove_prefix, wsub, wadd, SIZE_MOD]
    omega
  · simp only [shared_string_view.size, shared_string_view.remove_suffix, wsub, SIZE_MOD]
    omega
  · intro hv hlen hn
    have hl := length_of_valid hv
    cases d with
    | none => exact absurd hv (by simp [Valid])
    | some d =>
      simp only [Valid] at hv
      have h1 : b ≤ e := hv.1
      have h2 : e ≤ d.length := hv.2.1
      have h3 : d.length < SIZE_MOD := hv.2.2
      have hl1 : shared_string_view.length ⟨some d, b, e⟩ = e - b := hl
      rw [hl1] at hlen ⊢
      simp only [shared_string_view.size, shared_string_view.remove_prefix,
        shared_string_view.remove_suffix, wsub, wadd, SIZE_MOD] at *
      omega

theorem narrowing_size_wraps_witness :
    (remove_suffix (of_string hello) 6).size = SIZE_MOD + (of_string hello).length - 6 ∧
    (( remove_prefix (of_string hello) 6)._begin > ( remove_prefix (of_string hello) 6)._end) :=
  ⟨((narrowing_size_wraps (of_string hello) 6).2.2.2 (by decide) (by decide) (by decide)).2.1,
   ((narrowing_size_wraps (of_string hello) 6).2.2.2 (by decide) (by decide) (by decide)).2.2.1
     (by decide)⟩

/-! ## What `subseq` and `at` compute -/

/-- C18: for a valid view `v` and `b + e ≤ v.length ()`, `subseq (v, b, e)` is
the view over the same buffer with offsets `[_begin + b, _begin + b + e)`: it
is valid, starts at offset `b` of `v`, has length `e` (not `e - b`), and its
content is the `e` bytes of the content of `v` from position `b` on. -/
theorem subseq_is_offset_and_length (v : shared_string_view) (b e : Nat)
    (hv : Valid v) (h : b + e ≤ v.length) :
    subseq v b e = shared_string_view.mk v._data (v._begin + b) (v._begin + b + e) ∧
    Valid (subseq v b e) ∧
    (subseq v b e).length = e ∧
    content (subseq v b e) = ((content v).drop b).take e := by
  have hl := length_of_valid hv
  rw [hl] at h
  obtain ⟨d, B, E⟩ := v
  cases d with
  | none => exact absurd hv (by simp [Valid])
  | some d =>
    simp only [Valid] at hv
    have h1 : B ≤ E := hv.1
    have h2 : E ≤ d.length := hv.2.1
    have h3 : d.length < SIZE_MOD := hv.2.2
    have h4 : b + e ≤ E - B := h
    have hs : subseq ⟨some d, B, E⟩ b e = ⟨some d, B + b, B + b + e⟩ := by
      simp only [subseq, shared_string_view.remove_prefix, shared_string_view.remove_suffix,
        shared_string_view.length, wsub, wadd, SIZE_MOD, shared_string_view.mk.injEq,
        true_and] at h3 ⊢
      omega
    have hvs : Valid ⟨some d, B + b, B + b + e⟩ := by
      simp only [Valid]
      omega
    rw [hs]
    refine ⟨rfl, hvs, ?_, ?_⟩
    · rw [length_of_valid hvs]
      simp only
      omega
    · simp only [content]
      rw [List.drop_take, List.take_take, List.drop_drop,
        show B + b + e - (B + b) = e by omega, Nat.min_eq_left (by omega)]

theorem subseq_is_offset_and_length_witness :
    subseq (shared_string_view.mk (some hello_world) 2 11) 3 4
      = shared_string_view.mk (shared_string_view.mk (some hello_world) 2 11)._data
        ((shared_string_view.mk (some hello_world) 2 11)._begin + 3)
        ((shared_string_view.mk (some hello_world) 2 11)._begin + 3 + 4) ∧
    Valid (subseq (shared_string_view.mk (some hello_world) 2 11) 3 4) ∧
    (subseq (shared_string_view.mk (some hello_world) 2 11) 3 4).length = 4 ∧
    content (subseq (shared_string_view.mk (some hello_world) 2 11) 3 4)
      = ((content (shared_string_view.mk (some hello_world) 2 11)).drop 3).take 4 :=
  subseq_is_offset_and_length (shared_string_view.mk (some hello_world) 2 11) 3 4
    (by decide) (by decide)

theorem string_at_ok_iff (d : List Byte) (k : Nat) (c : Byte) :
    string_at d k = .ok c ↔ d[k]? = some c := by
  unfold string_at
  cases h : d[k]? with
  | none => simp
  | some x => simp

theorem string_at_error_iff (d : List Byte) (k : Nat) :
    string_at d k = .error Fault.out_of_range ↔ d.length ≤ k := by
  unfold string_at
  cases h : d[k]? with
  | none => simpa using h
  | some x =>
    have hk : k < d.length := by
      by_contra hk
      rw [List.getElem?_eq_none (not_lt.mp hk)] at h
      exact absurd h (by simp)
    simp only [reduceCtorEq, false_iff, not_le]
    exact hk

/-- C19: for a valid view `v` with buffer `d` and an index `i` (a `size_type`),
`v.at (i)` returns a byte exactly when `(_begin + i) mod 2^64` is less than the
length of the whole buffer, the byte is the one of the buffer at that
position, and otherwise the call fails with the out-of-range error. So for
`i < v.length ()` it returns the `i`-th byte of the logical content, as
`v[i]` does, and for a view that spans its whole buffer it fails iff
`i ≥ v.length ()`. -/
theorem at_checks_whole_buffer (v : shared_string_view) (d : List Byte) (i : Nat)
    (hv : Valid v) (hd : v._data = some d) (hi : i < SIZE_MOD) :
    ((∃ c, v.at i = .ok c) ↔ wadd v._begin i < d.length) ∧
    (∀ c, v.at i = .ok c ↔ d[wadd v._begin i]? = some c) ∧
    (¬ wadd v._begin i < d.length ↔ v.at i = .error Fault.out_of_range) ∧
    (i < v.length →
      ∃ c, v.at i = .ok c ∧ v.op_index i = .ok c ∧ (content v)[i]? = some c) ∧
    (v._begin = 0 → v._end = d.length →
      (v.at i = .error Fault.out_of_range ↔ v.length ≤ i)) := by
  have hl := length_of_valid hv
  obtain ⟨d0, b, e⟩ := v
  simp only at hd
  subst hd
  simp only [Valid] at hv
  have h1 : b ≤ e := hv.1
  have h2 : e ≤ d.length := hv.2.1
  have h3 : d.length < SIZE_MOD := hv.2.2
  have hl1 : shared_string_view.length ⟨some d, b, e⟩ = e - b := hl
  have hat : ∀ k, shared_string_view.at ⟨some d, b, e⟩ k = string_at d (wadd b k) :=
    fun k => rfl
  simp only [hat, hl1, string_at_ok_iff, string_at_error_iff, not_lt]
  refine ⟨?_, fun _ => trivial, trivial, ?_, ?_⟩
  · constructor
    · rintro ⟨c, hc⟩
      by_contra hk
      rw [List.getElem?_eq_none (not_lt.mp hk)] at hc
      exact absurd hc (by simp)
    · intro hk
      exact ⟨d[wadd b i], List.getElem?_eq_getElem hk⟩
  · intro hlt
    have hw : wadd b i = b + i := wadd_of_lt (by omega)
    have hk : b + i < d.length := by omega
    refine ⟨d[b + i], ?_, ?_, ?_⟩
    · rw [hw]
      exact List.getElem?_eq_getElem hk
    · have hne : ¬ (b + i = d.length) := by omega
      simp only [shared_string_view.op_index, hw, string_index, hne, if_false,
        List.getElem?_eq_getElem hk]
    · simp only [content]
      rw [List.getElem?_take_of_lt hlt, List.getElem?_drop, List.getElem?_eq_getElem hk]
  · intro hb he
    have hb0 : b = 0 := hb
    have he0 : e = d.length := he
    subst hb0
    have hw : wadd 0 i = i := by
      rw [wadd_of_lt (by omega)]
      omega
    rw [hw, he0]
    simp

theorem at_checks_whole_buffer_witness :
    ((∃ c, (shared_string_view.mk (some hello_world) 2 5).at 7 = .ok c) ↔
      wadd (shared_string_view.mk (some hello_world) 2 5)._begin 7 < hello_world.length) ∧
    (∀ c, (shared_string_view.mk (some hello_world) 2 5).at 7 = .ok c ↔
      hello_world[wadd (shared_string_view.mk (some hello_world) 2 5)._begin 7]? = some c) ∧
    (¬ wadd (shared_string_view.mk (some hello_world) 2 5)._begin 7 < hello_world.length ↔
      (shared_string_view.mk (some hello_world) 2 5).at 7 = .error Fault.out_of_range) ∧
    (7 < (shared_string_view.mk (some hello_world) 2 5).length →
      ∃ c, (shared_string_view.mk (some hello_world) 2 5).at 7 = .ok c ∧
        (shared_string_view.mk (some hello_world) 2 5).op_index 7 = .ok c ∧
        (content (shared_string_view.mk (some hello_world) 2 5))[7]? = some c) ∧
    ((shared_string_view.mk (some hello_world) 2 5)._begin = 0 →
      (shared_string_view.mk (some hello_world) 2 5)._end = hello_world.length →
      ((shared_string_view.mk (some hello_world) 2 5).at 7 = .error Fault.out_of_range ↔
        (shared_string_view.mk (some hello_world) 2 5).length ≤ 7)) :=
  at_checks_whole_buffer (shared_string_view.mk (some hello_world) 2 5) hello_world 7
    (by decide) rfl (by decide)

/-! ## Iteration -/

theorem iter_collect_eq (d : List Byte) (e : Nat) (he : e ≤ d.length) :
    ∀ (fuel i : Nat), i ≤ e → e - i ≤ fuel →
      Iter.collect fuel ⟨d, i⟩ ⟨d, e⟩ = some (.ok ((d.drop i).take (e - i))) := by
  intro fuel
  induction fuel with
  | zero =>
    intro i hi hf
    have h : i = e := by omega
    subst h
    simp [Iter.collect]
  | succ fuel ih =>
    intro i hi hf
    by_cases h : i = e
    · subst h
      simp [Iter.collect]
    · have hlt : i < d.length := by omega
      have hne : ¬ ((⟨d, i⟩ : Iter) = ⟨d, e⟩) := by
        simp only [Iter.mk.injEq, true_and]
        exact h
      have hstep : e - i = (e - (i + 1)) + 1 := by omega
      simp only [Iter.collect, hne, if_false, Iter.deref, List.getElem?_eq_getElem hlt,
        ih (i + 1) (by omega) (by omega)]
      rw [hstep, List.drop_eq_getElem_cons hlt, List.take_succ_cons]

theorem rev_collect_eq (d : List Byte) (b : Nat) :
    ∀ (fuel j : Nat), b ≤ j → j ≤ d.length → j - b ≤ fuel →
      RevIter.collect fuel ⟨⟨d, j⟩⟩ ⟨⟨d, b⟩⟩
        = some (.ok ((d.drop b).take (j - b)).reverse) := by
  intro fuel
  induction fuel with
  | zero =>
    intro j hj hd hf
    have h : j = b := by omega
    subst h
    simp [RevIter.collect]
  | succ fuel ih =>
    intro j hj hd hf
    by_cases h : j = b
    · subst h
      simp [RevIter.collect]
    · have hlt : j - 1 < d.length := by omega
      have hne : ¬ ((⟨⟨d, j⟩⟩ : RevIter) = ⟨⟨d, b⟩⟩) := by
        simp only [RevIter.mk.injEq, Iter.mk.injEq, true_and]
        exact h
      have h0 : ¬ (j = 0) := by omega
      have hstep : j - b = (j - 1 - b) + 1 := by omega
      have hget : (List.drop b d)[j - 1 - b]? = some d[j - 1] := by
        rw [List.getElem?_drop, show b + (j - 1 - b) = j - 1 by omega,
          List.getElem?_eq_getElem hlt]
      simp only [RevIter.collect, hne, if_false, RevIter.deref, h0, Iter.deref,
        List.getElem?_eq_getElem hlt, ih (j - 1) (by omega) (by omega) (by omega)]
      rw [hstep, List.take_succ, hget]
      simp

/-- C17: for a valid view, with at least `length ()` increments allowed, the
loop from `begin ()` to `end ()` ends and yields the bytes of the logical
content in order, the loop from `rbegin ()` to `rend ()` ends and yields them
in reverse order, and if the view is not empty `front ()` is the first and
`back ()` the last byte of the content. -/
theorem iteration_yields_content (v : shared_string_view) (fuel : Nat)
    (hv : Valid v) (hf : v.length ≤ fuel) :
    iterate_forward v fuel = some (.ok (content v)) ∧
    iterate_reverse v fuel = some (.ok (content v).reverse) ∧
    (v.empty = false →
      ∃ c1 c2, v.front = .ok c1 ∧ (content v).head? = some c1 ∧
        v.back = .ok c2 ∧ (content v).getLast? = some c2) := by
  have hl := length_of_valid hv
  rw [hl] at hf
  obtain ⟨d, b, e⟩ := v
  cases d with
  | none => exact absurd hv (by simp [Valid])
  | some d =>
    simp only [Valid] at hv
    have h1 : b ≤ e := hv.1
    have h2 : e ≤ d.length := hv.2.1
    have hf1 : e - b ≤ fuel := hf
    refine ⟨?_, ?_, ?_⟩
    · simp only [iterate_forward, shared_string_view.begin, shared_string_view.end, content]
      exact iter_collect_eq d e h2 fuel b h1 hf1
    · simp only [iterate_reverse, shared_string_view.rbegin, shared_string_view.rend, content,
        Nat.zero_add]
      exact rev_collect_eq d b fuel e h1 h2 hf1
    · intro hne
      simp only [shared_string_view.empty, beq_eq_false_iff_ne, ne_eq] at hne
      have hne1 : ¬ b = e := hne
      have hb : b < d.length := by omega
      have hlt : e - 1 < d.length := by omega
      have h0 : ¬ (e = 0) := by omega
      have hlen : (List.take (e - b) (List.drop b d)).length = e - b := by
        simp only [List.length_take, List.length_drop]
        omega
      refine ⟨d[b], d[e - 1], ?_, ?_, ?_, ?_⟩
      · simp only [shared_string_view.front, shared_string_view.begin, bind, Except.bind,
          Iter.deref, List.getElem?_eq_getElem hb]
      · simp only [content]
        rw [List.head?_eq_getElem?, List.getElem?_take_of_lt (by omega), List.getElem?_drop,
          Nat.add_zero, List.getElem?_eq_getElem hb]
      · simp only [shared_string_view.back, shared_string_view.rbegin, bind, Except.bind,
          RevIter.deref, Nat.zero_add, h0, if_false, Iter.deref,
          List.getElem?_eq_getElem hlt]
      · have hi : e - b - 1 < e - b := by omega
        simp only [content]
        rw [List.getLast?_eq_getElem?, hlen, List.getElem?_take_of_lt hi, List.getElem?_drop,
          show b + (e - b - 1) = e - 1 by omega, List.getElem?_eq_getElem hlt]

theorem iteration_yields_content_witness :
    iterate_forward (shared_string_view.mk (some hello_world) 6 11) 5
      = some (.ok (content (shared_string_view.mk (some hello_world) 6 11))) ∧
    iterate_reverse (shared_string_view.mk (some hello_world) 6 11) 5
      = some (.ok (content (shared_string_view.mk (some hello_world) 6 11)).reverse) ∧
    ((shared_string_view.mk (some hello_world) 6 11).empty = false →
      ∃ c1 c2, (shared_string_view.mk (some hello_world) 6 11).front = .ok c1 ∧
        (content (shared_string_view.mk (some hello_world) 6 11)).head? = some c1 ∧
        (shared_string_view.mk (some hello_world) 6 11).back = .ok c2 ∧
        (content (shared_string_view.mk (some hello_world) 6 11)).getLast? = some c2) :=
  iteration_yields_content (shared_string_view.mk (some hello_world) 6 11) 5
    (by decide) (by decide)

end sjo
